import Mathlib

/-!
Verification development for the myrient-filter selection engine
(src/lib.rs).  The Rust code is shallowly embedded: strings are modelled
as Lean String / List Char, the Rust regex used by
RomLister::get_base_name_and_revision is hand-compiled into an explicit
backtracking matcher with leftmost-first (Perl style) preference order,
i32 revisions are modelled as Int with the i32 overflow bound made
explicit, and the BTreeMap grouping of list_roms is modelled as insertion
into an association list sorted by the ordinary lexicographic order on
String (which coincides with the byte order Rust uses on valid UTF-8).
The regex escapes \s and \d are modelled as the Unicode white-space set
and the ASCII digits respectively, and the regex dot matches any
character except a newline, exactly as in the Rust regex crate with its
default flags; universally quantified statements that depend on the
digit escape carry an ASCII hypothesis, under which the ASCII digit test
agrees with the Unicode digit escape of the crate.
-/

/-- The Unicode code points with the White_Space property, the set matched
by the regex escape \s and trimmed by str::trim in the Rust source. -/
def wsCodes : List Nat :=
  [0x9, 0xA, 0xB, 0xC, 0xD, 0x20, 0x85, 0xA0, 0x1680,
   0x2000, 0x2001, 0x2002, 0x2003, 0x2004, 0x2005, 0x2006, 0x2007,
   0x2008, 0x2009, 0x200A, 0x2028, 0x2029, 0x202F, 0x205F, 0x3000]

/-- White-space test used for the regex escape \s and for str::trim. -/
def isWs (c : Char) : Bool := wsCodes.contains c.toNat

/-- str::trim from the Rust standard library: remove leading and trailing
white space.  Used on capture group 1 in get_base_name_and_revision. -/
def trimChars (l : List Char) : List Char :=
  ((l.dropWhile isWs).reverse.dropWhile isWs).reverse

/-- Does the character list start with the pattern list?  Models the
start-of-match test underlying str::contains. -/
def startsWithSeq : List Char → List Char → Bool
  | _, [] => true
  | [], _ :: _ => false
  | a :: as, b :: bs => a == b && startsWithSeq as bs

/-- Substring containment on character lists.  On valid UTF-8 this agrees
with the byte-level str::contains used by is_valid_file. -/
def containsSeq : List Char → List Char → Bool
  | [], pat => pat.isEmpty
  | c :: t, pat => startsWithSeq (c :: t) pat || containsSeq t pat

/-- str::contains from the Rust source (term.contains(pattern)). -/
def strContains (s pat : String) : Bool := containsSeq s.data pat.data

/-- The character-stream state machine of get_terms_in_parentheses
(src/lib.rs, lines 166-190): state is the scratch buffer current_term and
the in_parentheses flag.  A left parenthesis clears the buffer and sets
the flag, a right parenthesis with the flag set emits the buffer as one
tag and clears the flag, any other character is buffered only while the
flag is set. -/
def tagsAux : List Char → List Char → Bool → List (List Char)
  | [], _, _ => []
  | c :: cs, buf, flag =>
    if c = '(' then tagsAux cs [] true
    else if c = ')' then
      if flag then buf :: tagsAux cs buf false
      else tagsAux cs buf false
    else if flag then tagsAux cs (buf ++ [c]) flag
    else tagsAux cs buf flag

/-- The final (current_term, in_parentheses) state after running the
get_terms_in_parentheses loop over a character list. -/
def tagState : List Char → (List Char × Bool) → (List Char × Bool)
  | [], st => st
  | c :: cs, st =>
    if c = '(' then tagState cs ([], true)
    else if c = ')' then tagState cs (st.1, false)
    else if st.2 then tagState cs (st.1 ++ [c], st.2)
    else tagState cs st

/-- get_terms_in_parentheses from src/lib.rs: all parenthesised terms of a
filename, in order of appearance. -/
def get_terms_in_parentheses (filename : String) : List String :=
  (tagsAux filename.data [] false).map String.mk

/-- FilterOptions from src/lib.rs. -/
structure FilterOptions where
  region_limit : Bool
  region : String
  smart_filters : Bool
  exclude_patterns : List String
  latest_revision : Bool

/-- The fixed heuristic exclusion list of is_valid_file (smart filters). -/
def excluded_keywords : List String :=
  ["Beta", "Alpha", "Proto", "Virtual Console", "Aftermarket", "Unl",
   "Sample", "Promo", "Demo", "Kiosk", "Arcade"]

/-- is_valid_file from src/lib.rs (lines 160-239), taking the decoded
file name (the split on the slash and the percent-decoding of the raw
href are plumbing performed by external crates before the checks run,
and are the identity on the plain filenames the engine is specified on).
The three checks run in source order: region limit, exclude patterns,
smart filters. -/
def is_valid_file (o : FilterOptions) (file_name : String) : Bool :=
  let terms := get_terms_in_parentheses file_name
  if o.region_limit && !(terms.any fun t => t == o.region || t == "World") then
    false
  else if terms.any (fun t => o.exclude_patterns.any fun pat => strContains t pat) then
    false
  else if o.smart_filters && terms.any (fun t => excluded_keywords.contains t) then
    false
  else
    true

/-- The region check of is_valid_file in isolation: pass unless the
region limit is on and no tag equals the configured region or World. -/
def regionPass (o : FilterOptions) (file_name : String) : Bool :=
  !o.region_limit ||
    (get_terms_in_parentheses file_name).any fun t => t == o.region || t == "World"

/-- The exclude-pattern check of is_valid_file in isolation: pass unless
some tag contains some configured pattern as a substring. -/
def excludePass (o : FilterOptions) (file_name : String) : Bool :=
  !((get_terms_in_parentheses file_name).any fun t =>
      o.exclude_patterns.any fun pat => strContains t pat)

/-- The smart-filter check of is_valid_file in isolation: pass unless
smart filters are on and some tag is exactly one of the fixed keywords. -/
def smartPass (o : FilterOptions) (file_name : String) : Bool :=
  !o.smart_filters ||
    !((get_terms_in_parentheses file_name).any fun t => excluded_keywords.contains t)

/-!
Hand compilation of the anchored regex of get_base_name_and_revision
(src/lib.rs, lines 244-246):

  (caret)(.*?)
  (?:\s*\(STUFF(?:Rev\s*\d+|USA|Europe|World|Japan)STUFF\))*     P2, STUFF = any run without a right parenthesis
  (?:\s*\(Rev\s*(\d+)\))?                                        P3, capture group 2
  (?:\s*\(STUFF\))*                                              P4
  (?:\..*)?$                                                     P5

with the leftmost-first preference order of the Rust regex crate: the
lazy group 1 takes the shortest prefix that lets the tail match, and the
greedy quantifiers P2, P3, P4, P5 each prefer consuming over skipping.
Every quantified piece consumes white space, then one parenthesised
group up to its first closing parenthesis, so each piece has exactly one
possible consumption at a given position and only the choice between the
pieces backtracks.
-/

/-- ASCII digit test, the regex escape \d restricted to ASCII (the only
digits on which parse::<i32> in the source can succeed anyway). -/
def isDigit (c : Char) : Bool := c.isDigit

/-- Split a character list at its first right parenthesis: the regex
piece STUFF followed by the literal closing parenthesis.  Returns the
content before the parenthesis and the remainder after it. -/
def splitAtRparen : List Char → Option (List Char × List Char)
  | [] => none
  | c :: t =>
    if c = ')' then some ([], t)
    else
      match splitAtRparen t with
      | some (content, rest) => some (c :: content, rest)
      | none => none

/-- The group part of scanGroup, after the white space was dropped: an
opening parenthesis followed by splitAtRparen. -/
def scanGroupTail : List Char → Option (List Char × List Char)
  | [] => none
  | c :: t => if c = '(' then splitAtRparen t else none

/-- Consumption shared by P2, P3 and P4: white space, an opening
parenthesis, the content up to the first closing parenthesis, and that
closing parenthesis.  Returns (content, remainder). -/
def scanGroup (l : List Char) : Option (List Char × List Char) :=
  scanGroupTail (l.dropWhile isWs)

/-- Recognise the literal letters R, e, v at the head of a list and
return the remainder. -/
def revHead (l : List Char) : Option (List Char) :=
  match l with
  | c1 :: c2 :: c3 :: t =>
    if c1 = 'R' then if c2 = 'e' then if c3 = 'v' then some t else none
    else none else none
  | _ => none

/-- Does the sub-pattern Rev\s*\d+ match at the head of the list? -/
def revTokenAt (l : List Char) : Bool :=
  match revHead l with
  | some t =>
    match t.dropWhile isWs with
    | c :: _ => isDigit c
    | [] => false
  | none => false

/-- Does the list contain an occurrence of Rev\s*\d+ anywhere? -/
def hasRevToken : List Char → Bool
  | [] => false
  | c :: t => revTokenAt (c :: t) || hasRevToken t

/-- The metadata test of P2 on a group content: it contains Rev\s*\d+ or
one of the four region markers as a substring. -/
def hasKeyword (content : List Char) : Bool :=
  hasRevToken content || containsSeq content ("USA".data) ||
    containsSeq content ("Europe".data) || containsSeq content ("World".data) ||
    containsSeq content ("Japan".data)

/-- Is the group content exactly Rev\s*\d+ (the inside of P3)?  Returns
the digit run that capture group 2 would hold. -/
def revExact (content : List Char) : Option (List Char) :=
  match revHead content with
  | some t =>
    let t2 := t.dropWhile isWs
    let ds := t2.takeWhile isDigit
    if ds = [] then none
    else if t2.dropWhile isDigit = [] then some ds else none
  | none => none

/-- One repetition of P2 at the head of the list: a parenthesised group
whose content passes the metadata test.  Returns the remainder. -/
def tryP2 (l : List Char) : Option (List Char) :=
  match scanGroup l with
  | some p => if hasKeyword p.1 then some p.2 else none
  | none => none

/-- P3 at the head of the list: a group of the exact shape (Rev digits).
Returns the captured digits and the remainder. -/
def tryP3 (l : List Char) : Option (List Char × List Char) :=
  match scanGroup l with
  | some p =>
    match revExact p.1 with
    | some ds => some (ds, p.2)
    | none => none
  | none => none

/-- The rest of a haystack matches .*$ exactly when it holds no newline
(the regex dot does not match a newline and the dollar anchors at the
end of the haystack). -/
def noNL (l : List Char) : Bool := l.all fun c => !(c == '\n')

/-- States of the deterministic automaton for the regex tail P4* P5? $:
outside any group, inside the white space that must lead to a group, or
inside a group before its closing parenthesis. -/
inductive M4State where
  | outer : M4State
  | afterWs : M4State
  | inside : M4State

/-- Deterministic automaton for the tail (?:\s*\(STUFF\))*(?:\..*)?$.
No backtracking is needed: at each point either the end was reached, a
dot starts the extension, or white space and an opening parenthesis
commit to one more group. -/
def m4run : M4State → List Char → Bool
  | .outer, [] => true
  | .outer, c :: cs =>
    if c = '.' then noNL cs
    else if isWs c then m4run .afterWs cs
    else if c = '(' then m4run .inside cs
    else false
  | .afterWs, [] => false
  | .afterWs, c :: cs =>
    if isWs c then m4run .afterWs cs
    else if c = '(' then m4run .inside cs
    else false
  | .inside, [] => false
  | .inside, c :: cs =>
    if c = ')' then m4run .outer cs
    else m4run .inside cs

/-- Does P4* P5? $ match the whole list? -/
def m4 (l : List Char) : Bool := m4run .outer l

/-- P3? P4* P5? $ with capture: prefer the P3-present branch, fall back
to the P3-absent branch; report the captured digits if the present
branch is the one that matches. -/
def m3 (l : List Char) : Option (Option (List Char)) :=
  match tryP3 l with
  | some q =>
    if m4 q.2 then some (some q.1)
    else if m4 l then some none
    else none
  | none => if m4 l then some none else none

/-- P2* P3? P4* P5? $ with capture, fuelled: the greedy P2 star prefers
one more repetition, and on failure of the whole remainder backtracks to
the P3 position.  Each P2 repetition consumes at least two characters,
so fuel larger than the list length makes the fuel bound unreachable. -/
def m2F : Nat → List Char → Option (Option (List Char))
  | 0, _ => none
  | fuel + 1, l =>
    match tryP2 l with
    | some rest =>
      match m2F fuel rest with
      | some cap => some cap
      | none => m3 l
    | none => m3 l

/-- The regex tail P2* P3? P4* P5? $ with capture group 2. -/
def m2 (l : List Char) : Option (Option (List Char)) := m2F (l.length + 1) l

/-- The lazy capture group 1: try ever longer prefixes (shortest first,
the preference of .*?) until the tail matches the corresponding suffix.
The regex dot does not match a newline, so group 1 can never absorb one:
when the tail fails at a suffix whose head is a newline, no longer
prefix is available and the whole anchored regex fails.  Returns
(group 1, group 2). -/
def lazyLoop : List Char → List Char → Option (List Char × Option (List Char))
  | acc, [] =>
    match m2 [] with
    | some cap => some (acc.reverse, cap)
    | none => none
  | acc, c :: cs =>
    match m2 (c :: cs) with
    | some cap => some (acc.reverse, cap)
    | none => if c = '\n' then none else lazyLoop (c :: acc) cs

/-- re.captures(filename) for the anchored regex of
get_base_name_and_revision: group 1 and the optional group 2. -/
def regexCaptures (s : String) : Option (List Char × Option (List Char)) :=
  lazyLoop [] s.data

/-- parse::<i32> on a non-empty run of ASCII digits: the decimal value
if it fits in an i32, otherwise failure (overflow). -/
def parseDigitsI32 (ds : List Char) : Option Int :=
  let n : Nat := ds.foldl (fun n c => n * 10 + (c.toNat - Char.toNat '0')) 0
  if n ≤ 2147483647 then some (Int.ofNat n) else none

/-- The first match of the fallback regex \(Rev\s*(\d+)\) at the head of
the list, returning the captured digits. -/
def revAt (l : List Char) : Option (List Char) :=
  match l with
  | c :: t =>
    if c = '(' then
      match revHead t with
      | some t2 =>
        let t3 := t2.dropWhile isWs
        let ds := t3.takeWhile isDigit
        if ds = [] then none
        else
          match t3.dropWhile isDigit with
          | c2 :: _ => if c2 = ')' then some ds else none
          | [] => none
      | none => none
    else none
  | [] => none

/-- rev_re.captures(filename): the leftmost match of \(Rev\s*(\d+)\) in
the whole filename, returning capture group 1. -/
def findFirstRev : List Char → Option (List Char)
  | [] => none
  | c :: t =>
    match revAt (c :: t) with
    | some ds => some ds
    | none => findFirstRev t

/-- get_base_name_and_revision from src/lib.rs (lines 241-267): group 1
trimmed is the base name; the revision is group 2 parsed as i32 when it
participated, otherwise the first (Rev digits) group anywhere in the
filename; if the regex did not match at all, the filename is returned
verbatim with no revision. -/
def get_base_name_and_revision (filename : String) : String × Option Int :=
  match regexCaptures filename with
  | some (g1, g2) =>
    let base_name := String.mk (trimChars g1)
    let revision :=
      match g2.bind parseDigitsI32 with
      | some v => some v
      | none => (findFirstRev filename.data).bind parseDigitsI32
    (base_name, revision)
  | none => (filename, none)

/-- Rom from src/lib.rs. -/
structure Rom where
  filename : String
  url : String
deriving DecidableEq

/-- The grouping key of list_roms: the base name computed by
get_base_name_and_revision. -/
def baseName (r : Rom) : String := (get_base_name_and_revision r.filename).1

/-- The comparison key of the max_by_key call in list_roms:
revision.unwrap_or(-1). -/
def romKey (r : Rom) : Int :=
  match (get_base_name_and_revision r.filename).2 with
  | some v => v
  | none => -1

/-- One step of Iterator::max_by_key: the running maximum is replaced
whenever the new element compares greater or equal, so among equal keys
the last element wins. -/
def maxStep (acc x : Rom) : Rom := if romKey acc ≤ romKey x then x else acc

/-- Iterator::max_by_key over romKey: none on an empty iterator,
otherwise the fold of maxStep. -/
def maxByKeyLast : List Rom → Option Rom
  | [] => none
  | r :: rs => some (rs.foldl maxStep r)

/-- The per-group body of the final loop of list_roms: a singleton group
is pushed as is, a larger group is reduced by max_by_key. -/
def pickLatest (g : List Rom) : List Rom :=
  match g with
  | [r] => [r]
  | _ =>
    match maxByKeyLast g with
    | some r => [r]
    | none => []

/-- Lexicographic strict order on character lists by code point.  On
valid UTF-8 this coincides with the byte order Rust uses to compare the
String keys of the BTreeMap in list_roms. -/
def listLtB : List Char → List Char → Bool
  | [], [] => false
  | [], _ :: _ => true
  | _ :: _, [] => false
  | a :: as, b :: bs =>
    if a < b then true
    else if b < a then false
    else listLtB as bs

/-- The BTreeMap key order of list_roms on String. -/
def strLtB (a b : String) : Bool := listLtB a.data b.data

/-- BTreeMap::entry(key).or_default().push(rom) on an association list
kept sorted by strLtB, the key order of the BTreeMap in list_roms. -/
def insertGroup (k : String) (r : Rom) : List (String × List Rom) → List (String × List Rom)
  | [] => [(k, [r])]
  | p :: rest =>
    if k = p.1 then (p.1, p.2 ++ [r]) :: rest
    else if strLtB k p.1 then (k, [r]) :: p :: rest
    else p :: insertGroup k r rest

/-- The grouping loop of list_roms: fold the records into the sorted
map, keyed by baseName, preserving input order inside each group. -/
def groupRoms (roms : List Rom) : List (String × List Rom) :=
  roms.foldl (fun m r => insertGroup (baseName r) r m) []

/-- The final loop of list_roms: walk the groups in map order and push
each winner. -/
def collectWinners : List (String × List Rom) → List Rom
  | [] => []
  | p :: rest => pickLatest p.2 ++ collectWinners rest

/-- The record-level core of list_roms (src/lib.rs, lines 103-158): when
latest_revision is off the records pass through unchanged, otherwise
they are grouped by base name and reduced to one winner per group.  The
derivation of each filename from its URL is plumbing shared verbatim by
both branches and is not part of the selection engine. -/
def list_roms_core (latest_revision : Bool) (roms : List Rom) : List Rom :=
  if !latest_revision then roms
  else collectWinners (groupRoms roms)

/-- The keys of the grouping map. -/
def keysOf (m : List (String × List Rom)) : List String := m.map Prod.fst

/-- Well-formedness of the grouping map: every group is non-empty and
holds only records whose base name is its key. -/
def wfGroups (m : List (String × List Rom)) : Prop :=
  ∀ p ∈ m, p.2 ≠ [] ∧ ∀ r ∈ p.2, baseName r = p.1

/-!
Definitions following the words of the specification (not the source),
used only to state that the spec sentence on revision resolution
disagrees with the code: the trailing metadata run of a filename and the
revision the spec derives from it.
-/

/-- Following the spec wording: a parenthesised group is metadata when it
contains the token Rev digits or one of the markers USA, Europe, World,
Japan. -/
def specMetadataGroup (content : List Char) : Bool := hasKeyword content

/-- Following the spec wording: strip the extension, the text after the
last dot. -/
def dropExt (l : List Char) : List Char :=
  if ('.') ∈ l then ((l.reverse.dropWhile fun c => !(c == '.')).drop 1).reverse
  else l

/-- Read one parenthesised group at the end of a reversed character
list: trailing white space, the closing parenthesis, the content, the
opening parenthesis.  Returns the content in forward order and the
reversed remainder. -/
def revGroupFromEnd (r : List Char) : Option (List Char × List Char) :=
  match r.dropWhile isWs with
  | c :: t =>
    if c = ')' then
      let content := t.takeWhile fun c2 => !(c2 == '(') && !(c2 == ')')
      match t.dropWhile fun c2 => !(c2 == '(') && !(c2 == ')') with
      | c2 :: rest => if c2 = '(' then some (content.reverse, rest) else none
      | [] => none
    else none
  | [] => none

/-- Collect the contiguous run of trailing metadata groups, right to
left, from a reversed stem. -/
def specTrailingRunAux : Nat → List Char → List (List Char)
  | 0, _ => []
  | fuel + 1, r =>
    match revGroupFromEnd r with
    | some (content, rest) =>
      if specMetadataGroup content then content :: specTrailingRunAux fuel rest
      else []
    | none => []

/-- Following the spec wording: the contiguous trailing run of metadata
parenthesised groups of a filename, left to right, after stripping the
extension. -/
def specTrailingRun (s : String) : List (List Char) :=
  (specTrailingRunAux s.data.length ((dropExt s.data).reverse)).reverse

/-- Following the spec wording of claim C2: if the trailing metadata run
contains a group of the exact shape (Rev digits), use that number;
otherwise use the first (Rev digits) group anywhere in the filename;
otherwise no revision. -/
def specC2Revision (s : String) : Option Int :=
  match (specTrailingRun s).filterMap revExact with
  | ds :: _ => parseDigitsI32 ds
  | [] => (findFirstRev s.data).bind parseDigitsI32

/-- The strict key order of the grouping map, as a relation. -/
def strLt (a b : String) : Prop := strLtB a b = true

/-! Checks that the embedding reproduces the unit tests of src/lib.rs
and the concrete values used by the claims. -/

theorem embedding_check_1 : get_base_name_and_revision ("Super Game (USA).zip") = ("Super Game", none) := by
  decide

theorem embedding_check_2 : get_terms_in_parentheses ("Super Game (Europe).zip") = ["Europe"] := by decide

theorem embedding_check_3 : specC2Revision ("A (Rev 1) B (Rev 2).zip") = some 2 := by decide

theorem embedding_check_4 : get_base_name_and_revision ("Super Game (Rev 2) (USA).zip") = ("Super Game", some 2) := by
  decide

theorem embedding_check_5 : get_base_name_and_revision ("Super Game (Rev 1).zip") = ("Super Game", some 1) := by
  decide

theorem embedding_check_6 : get_base_name_and_revision ("Game (Rev 12) (USA).zip") = ("Game", some 12) := by
  decide

theorem embedding_check_7 : get_base_name_and_revision ("Game (World) (Legacy Game Collection).zip") = ("Game", none) := by
  decide

theorem embedding_check_8 : get_base_name_and_revision ("Game (Legacy Collection) (US) (Rev 1).zip") = ("Game", some 1) := by
  decide

theorem embedding_check_9 : get_base_name_and_revision ("Game (Rev 2) (Legacy Collection) (World).zip") = ("Game", some 2) := by
  decide

theorem embedding_check_10 : get_base_name_and_revision ("Game (World) (Rev 1) (Legacy Collection).zip") = ("Game", some 1) := by
  decide

theorem embedding_check_11 :
    get_base_name_and_revision ("Game with (Parentheses) in Name (World) (Rev 3).zip") =
      ("Game with (Parentheses) in Name", some 3) := by
  decide

theorem embedding_check_12 :
    get_base_name_and_revision ("Game (Collection Edition) (Rev 1) (US) (Reprint).zip") =
      ("Game", some 1) := by
  decide

theorem embedding_check_13 : get_base_name_and_revision ("Game.zip") = ("Game", none) := by decide

theorem embedding_check_14 : get_base_name_and_revision ("(((") = ("(((", none) := by decide

theorem embedding_check_15 : get_base_name_and_revision ("A (Rev 1) B (Rev 2).zip") = ("A (Rev 1) B", some 1) := by
  decide

theorem embedding_check_16 : specTrailingRun ("A (Rev 1) B (Rev 2).zip") = [("Rev 2".data)] := by decide

theorem embedding_check_17 :
    pickLatest [⟨"Game (USA).zip", "u1"⟩, ⟨"Game (Europe).zip", "u2"⟩] =
      [⟨"Game (Europe).zip", "u2"⟩] := by
  decide

theorem embedding_check_18 :
    list_roms_core true
        [⟨"Game B (USA).zip", "u1"⟩, ⟨"Game A (Rev 1) (USA).zip", "u2"⟩,
         ⟨"Game A (USA).zip", "u3"⟩] =
      [⟨"Game A (Rev 1) (USA).zip", "u2"⟩, ⟨"Game B (USA).zip", "u1"⟩] := by
  decide

theorem embedding_check_19 :
    is_valid_file ⟨true, "Europe", true, ["Beta", "Rev B"], true⟩ ("Super Game (Europe).zip") = true := by
  decide

theorem embedding_check_20 :
    is_valid_file ⟨true, "Europe", true, ["Beta", "Rev B"], true⟩ ("Super Game (USA).zip") = false := by
  decide

theorem embedding_check_21 :
    is_valid_file ⟨true, "Europe", true, ["Beta", "Rev B"], true⟩ ("Super Game (Rev B).zip") = false := by
  decide

theorem embedding_check_22 :
    is_valid_file ⟨true, "Europe", true, ["Beta", "Rev B"], true⟩ ("Beta Game (Europe).zip") = true := by
  decide

theorem embedding_check_23 : regexCaptures ("A\nB") = none := by decide

theorem embedding_check_24 : get_base_name_and_revision ("A\nB") = ("A\nB", none) := by
  decide

/-! Order lemmas for the key comparison. -/

theorem listLtB_irrefl : ∀ l : List Char, listLtB l l = false := by
  intro l
  induction l with
  | nil => rfl
  | cons a t ih => simp [listLtB, lt_irrefl, ih]

theorem listLtB_trans :
    ∀ a b c : List Char, listLtB a b = true → listLtB b c = true → listLtB a c = true := by
  intro a
  induction a with
  | nil =>
    intro b c hab hbc
    cases b with
    | nil => simp [listLtB] at hab
    | cons b0 bt =>
      cases c with
      | nil => simp [listLtB] at hbc
      | cons c0 ct => simp [listLtB]
  | cons a0 at' ih =>
    intro b c hab hbc
    cases b with
    | nil => simp [listLtB] at hab
    | cons b0 bt =>
      cases c with
      | nil => simp [listLtB] at hbc
      | cons c0 ct =>
        simp only [listLtB] at hab hbc ⊢
        by_cases h1 : a0 < b0
        · by_cases h2 : b0 < c0
          · simp [lt_trans h1 h2]
          · by_cases h3 : c0 < b0
            · simp [h2, h3] at hbc
            · have : b0 = c0 := le_antisymm (not_lt.mp h3) (not_lt.mp h2)
              simp [this ▸ h1]
        · by_cases h1a : b0 < a0
          · simp [h1, h1a] at hab
          · have hab0 : a0 = b0 := le_antisymm (not_lt.mp h1a) (not_lt.mp h1)
            subst hab0
            rw [if_neg (lt_irrefl a0), if_neg (lt_irrefl a0)] at hab
            by_cases h2 : a0 < c0
            · simp [h2]
            · by_cases h3 : c0 < a0
              · simp [h2, h3] at hbc
              · rw [if_neg h2, if_neg h3] at hbc ⊢
                exact ih bt ct hab hbc

theorem listLtB_eq_of_not_lt :
    ∀ a b : List Char, listLtB a b = false → listLtB b a = false → a = b := by
  intro a
  induction a with
  | nil =>
    intro b hab _
    cases b with
    | nil => rfl
    | cons b0 bt => simp [listLtB] at hab
  | cons a0 at' ih =>
    intro b hab hba
    cases b with
    | nil => simp [listLtB] at hba
    | cons b0 bt =>
      simp only [listLtB] at hab hba
      by_cases h1 : a0 < b0
      · simp [h1] at hab
      · by_cases h2 : b0 < a0
        · simp [h1, h2] at hba
        · have h0 : a0 = b0 := le_antisymm (not_lt.mp h2) (not_lt.mp h1)
          simp only [h1, h2, if_false] at hab hba
          exact h0 ▸ congrArg (a0 :: ·) (ih bt hab hba) ▸ rfl

theorem listLtB_asymm :
    ∀ a b : List Char, listLtB a b = true → listLtB b a = false := by
  intro a b hab
  by_contra h
  have hba : listLtB b a = true := by
    cases hx : listLtB b a
    · exact absurd hx h
    · rfl
  have : listLtB a a = true := listLtB_trans a b a hab hba
  rw [listLtB_irrefl] at this
  exact Bool.false_ne_true this

theorem strLtB_irrefl (a : String) : strLtB a a = false := listLtB_irrefl a.data

theorem strLtB_trans {a b c : String} (h1 : strLtB a b = true) (h2 : strLtB b c = true) :
    strLtB a c = true := listLtB_trans a.data b.data c.data h1 h2

theorem strLtB_asymm {a b : String} (h : strLtB a b = true) : strLtB b a = false :=
  listLtB_asymm a.data b.data h

theorem strLtB_eq_of_not_lt {a b : String} (h1 : strLtB a b = false)
    (h2 : strLtB b a = false) : a = b := by
  have : a.data = b.data := listLtB_eq_of_not_lt a.data b.data h1 h2
  cases a
  cases b
  exact congrArg String.mk this

theorem strLtB_total {a b : String} (hne : a ≠ b) :
    strLtB a b = true ∨ strLtB b a = true := by
  cases h1 : strLtB a b
  · cases h2 : strLtB b a
    · exact absurd (strLtB_eq_of_not_lt h1 h2) hne
    · exact Or.inr rfl
  · exact Or.inl rfl

/-! Lemmas on the tag-extraction state machine. -/

theorem tagState_nil (st : List Char × Bool) : tagState [] st = st := rfl

theorem tagsAux_append :
    ∀ (l1 l2 : List Char) (buf : List Char) (flag : Bool),
      tagsAux (l1 ++ l2) buf flag =
        tagsAux l1 buf flag ++
          tagsAux l2 (tagState l1 (buf, flag)).1 (tagState l1 (buf, flag)).2 := by
  intro l1
  induction l1 with
  | nil => intro l2 buf flag; simp [tagsAux, tagState]
  | cons c t ih =>
    intro l2 buf flag
    by_cases h1 : c = '('
    · simp [tagsAux, tagState, h1, ih]
    · by_cases h2 : c = ')'
      · cases flag with
        | false => simp [tagsAux, tagState, h1, h2, ih]
        | true => simp [tagsAux, tagState, h1, h2, ih]
      · cases flag with
        | false => simp [tagsAux, tagState, h1, h2, ih]
        | true => simp [tagsAux, tagState, h1, h2, ih]

theorem tagsAux_no_close :
    ∀ (v : List Char) (buf : List Char), (')') ∉ v → tagsAux v buf true = [] := by
  intro v
  induction v with
  | nil => intro buf _; rfl
  | cons c t ih =>
    intro buf hv
    have hc : c ≠ ')' := fun h => hv (h ▸ List.mem_cons_self c t)
    have ht : (')') ∉ t := fun h => hv (List.mem_cons_of_mem c h)
    by_cases h1 : c = '('
    · simp only [tagsAux, h1, if_pos rfl]
      exact ih [] ht
    · simp [tagsAux, h1, hc, ih _ ht]

theorem tagsAux_no_open :
    ∀ (u : List Char) (buf : List Char), ('(') ∉ u → tagsAux u buf false = [] := by
  intro u
  induction u with
  | nil => intro buf _; rfl
  | cons c t ih =>
    intro buf hu
    have hc : c ≠ '(' := fun h => hu (h ▸ List.mem_cons_self c t)
    have ht : ('(') ∉ t := fun h => hu (List.mem_cons_of_mem c h)
    by_cases h2 : c = ')'
    · simp [tagsAux, hc, h2, ih _ ht]
    · simp [tagsAux, hc, h2, ih _ ht]

/-! Lemmas on the hand-compiled regex. -/

theorem dropWhile_length_le (p : Char → Bool) :
    ∀ l : List Char, (l.dropWhile p).length ≤ l.length := by
  intro l
  induction l with
  | nil => simp
  | cons c t ih =>
    by_cases h : p c
    · simp only [List.dropWhile, h]
      exact Nat.le_succ_of_le ih
    · simp [List.dropWhile, h]

theorem splitAtRparen_length :
    ∀ t content rest, splitAtRparen t = some (content, rest) → rest.length < t.length := by
  intro t
  induction t with
  | nil => intro content rest h; simp [splitAtRparen] at h
  | cons c t' ih =>
    intro content rest h
    by_cases hc : c = ')'
    · simp only [splitAtRparen, hc, if_pos rfl] at h
      cases h
      simp
    · simp only [splitAtRparen, hc, if_neg, if_false] at h
      cases hsub : splitAtRparen t' with
      | none => rw [hsub] at h; cases h
      | some p =>
        rw [hsub] at h
        cases h
        exact Nat.lt_succ_of_lt (ih p.1 p.2 (by rw [hsub]))

theorem scanGroup_some {l : List Char} {content rest : List Char}
    (h : scanGroup l = some (content, rest)) :
    ∃ t, l.dropWhile isWs = '(' :: t ∧ splitAtRparen t = some (content, rest) := by
  unfold scanGroup at h
  cases hd : l.dropWhile isWs with
  | nil => rw [hd] at h; cases h
  | cons c t =>
    rw [hd] at h
    by_cases hc : c = '('
    · subst hc
      simp only [scanGroupTail, if_pos rfl] at h
      exact ⟨t, rfl, h⟩
    · simp only [scanGroupTail, hc, if_neg, if_false] at h
      cases h

theorem scanGroup_length {l : List Char} {content rest : List Char}
    (h : scanGroup l = some (content, rest)) : rest.length < l.length := by
  obtain ⟨t, hd, hsp⟩ := scanGroup_some h
  have h1 : t.length + 1 ≤ l.length := by
    have := dropWhile_length_le isWs l
    rw [hd] at this
    simpa using this
  have h2 := splitAtRparen_length t content rest hsp
  omega

theorem splitAtRparen_m4 :
    ∀ t content rest, splitAtRparen t = some (content, rest) →
      m4run .inside t = m4run .outer rest := by
  intro t
  induction t with
  | nil => intro content rest h; simp [splitAtRparen] at h
  | cons c t' ih =>
    intro content rest h
    by_cases hc : c = ')'
    · subst hc
      simp only [splitAtRparen, if_pos rfl] at h
      cases h
      simp [m4run]
    · simp only [splitAtRparen, hc, if_neg, if_false] at h
      cases hsub : splitAtRparen t' with
      | none => rw [hsub] at h; cases h
      | some p =>
        rw [hsub] at h
        cases h
        rw [show m4run .inside (c :: t') = m4run .inside t' by simp [m4run, hc]]
        exact ih p.1 p.2 (by rw [hsub])

theorem dropWhile_lparen_m4 :
    ∀ l t, l.dropWhile isWs = '(' :: t →
      m4run .outer l = m4run .inside t ∧ m4run .afterWs l = m4run .inside t := by
  intro l
  induction l with
  | nil => intro t h; cases h
  | cons c cs ih =>
    intro t h
    by_cases hw : isWs c
    · have hd : cs.dropWhile isWs = '(' :: t := by
        simpa [List.dropWhile, hw] using h
      have hdot : c ≠ '.' := by
        intro hc
        rw [hc] at hw
        exact absurd hw (by decide)
      have h1 : m4run .outer (c :: cs) = m4run .afterWs cs := by
        simp [m4run, hdot, hw]
      have h2 : m4run .afterWs (c :: cs) = m4run .afterWs cs := by
        simp [m4run, hw]
      rw [h1, h2]
      exact ⟨(ih t hd).2, (ih t hd).2⟩
    · have hd : c :: cs = '(' :: t := by
        simpa [List.dropWhile, hw] using h
      cases hd
      have h1 : ('(' : Char) ≠ '.' := by decide
      constructor
      · simp [m4run, hw, h1]
      · simp [m4run, hw]

theorem scanGroup_m4 {l : List Char} {content rest : List Char}
    (h : scanGroup l = some (content, rest)) : m4 l = m4 rest := by
  obtain ⟨t, hd, hsp⟩ := scanGroup_some h
  unfold m4
  rw [(dropWhile_lparen_m4 l t hd).1]
  exact splitAtRparen_m4 t content rest hsp

theorem tryP2_some {l rest : List Char} (h : tryP2 l = some rest) :
    ∃ content, scanGroup l = some (content, rest) ∧ hasKeyword content = true := by
  unfold tryP2 at h
  cases hg : scanGroup l with
  | none => rw [hg] at h; cases h
  | some p =>
    rw [hg] at h
    dsimp only at h
    by_cases hk : hasKeyword p.1
    · rw [if_pos hk] at h
      cases h
      exact ⟨p.1, rfl, hk⟩
    · rw [if_neg hk] at h
      cases h

theorem tryP2_m4 {l rest : List Char} (h : tryP2 l = some rest) : m4 l = m4 rest := by
  obtain ⟨content, hg, _⟩ := tryP2_some h
  exact scanGroup_m4 hg

theorem tryP2_length {l rest : List Char} (h : tryP2 l = some rest) :
    rest.length < l.length := by
  obtain ⟨content, hg, _⟩ := tryP2_some h
  exact scanGroup_length hg

theorem revHead_some : ∀ {l t : List Char}, revHead l = some t → l = 'R' :: 'e' :: 'v' :: t := by
  intro l t h
  match l with
  | [] => cases h
  | [c1] => cases h
  | [c1, c2] => cases h
  | c1 :: c2 :: c3 :: t' =>
    by_cases h1 : c1 = 'R'
    · by_cases h2 : c2 = 'e'
      · by_cases h3 : c3 = 'v'
        · simp only [revHead, h1, h2, h3, if_pos rfl] at h
          cases h
          rw [h1, h2, h3]
        · simp [revHead, h1, h2, h3] at h
      · simp [revHead, h1, h2] at h
    · simp [revHead, h1] at h

theorem revExact_some {content ds : List Char} (h : revExact content = some ds) :
    ∃ t, content = 'R' :: 'e' :: 'v' :: t ∧
      (t.dropWhile isWs).takeWhile isDigit = ds ∧ ds ≠ [] ∧
      (t.dropWhile isWs).dropWhile isDigit = [] := by
  unfold revExact at h
  cases hr : revHead content with
  | none => rw [hr] at h; cases h
  | some t =>
    rw [hr] at h
    dsimp only at h
    by_cases he : (t.dropWhile isWs).takeWhile isDigit = []
    · rw [if_pos he] at h; cases h
    · rw [if_neg he] at h
      by_cases hd : (t.dropWhile isWs).dropWhile isDigit = []
      · rw [if_pos hd] at h
        cases h
        exact ⟨t, revHead_some hr, rfl, he, hd⟩
      · rw [if_neg hd] at h; cases h

theorem revExact_hasKeyword {content ds : List Char} (h : revExact content = some ds) :
    hasKeyword content = true := by
  obtain ⟨t, hc, hds, hne, _⟩ := revExact_some h
  subst hc
  obtain ⟨c, t3, ht2, hdc⟩ :
      ∃ c t3, t.dropWhile isWs = c :: t3 ∧ isDigit c = true := by
    cases ht2 : t.dropWhile isWs with
    | nil =>
      rw [ht2] at hds
      simp only [List.takeWhile_nil] at hds
      exact absurd hds.symm (by simpa using hne)
    | cons c t3 =>
      rw [ht2] at hds
      by_cases hdc : isDigit c
      · exact ⟨c, t3, rfl, hdc⟩
      · rw [List.takeWhile_cons_of_neg (by simpa using hdc)] at hds
        exact absurd hds.symm (by simpa using hne)
  have hrev : revTokenAt ('R' :: 'e' :: 'v' :: t) = true := by
    have hh : revHead ('R' :: 'e' :: 'v' :: t) = some t := by simp [revHead]
    unfold revTokenAt
    rw [hh]
    dsimp only
    rw [ht2]
    exact hdc
  unfold hasKeyword hasRevToken
  rw [hrev]
  simp

theorem tryP3_imp_tryP2 {l ds rest : List Char} (h : tryP3 l = some (ds, rest)) :
    tryP2 l = some rest := by
  unfold tryP3 at h
  cases hg : scanGroup l with
  | none => rw [hg] at h; cases h
  | some p =>
    rw [hg] at h
    dsimp only at h
    cases hre : revExact p.1 with
    | none => rw [hre] at h; cases h
    | some ds' =>
      rw [hre] at h
      cases h
      unfold tryP2
      rw [hg]
      dsimp only
      rw [if_pos (revExact_hasKeyword hre)]

theorem m3_isSome_of_tryP3_none {l : List Char} (h3 : tryP3 l = none) :
    (m3 l).isSome = m4 l := by
  unfold m3
  rw [h3]
  cases hm : m4 l <;> simp

theorem m2F_isSome :
    ∀ (fuel : Nat) (l : List Char), l.length < fuel → (m2F fuel l).isSome = m4 l := by
  intro fuel
  induction fuel with
  | zero => intro l h; omega
  | succ f ih =>
    intro l hl
    cases ht : tryP2 l with
    | none =>
      have h2 : m2F (f + 1) l = m3 l := by
        unfold m2F
        rw [ht]
      rw [h2]
      cases h3 : tryP3 l with
      | none => exact m3_isSome_of_tryP3_none h3
      | some q =>
        have := @tryP3_imp_tryP2 l q.1 q.2 (by rw [h3])
        rw [ht] at this
        cases this
    | some rest =>
      have hr : rest.length < l.length := tryP2_length ht
      have hm : m4 l = m4 rest := tryP2_m4 ht
      cases hrec : m2F f rest with
      | some cap =>
        have h2 : m2F (f + 1) l = some cap := by
          unfold m2F
          rw [ht]
          dsimp only
          rw [hrec]
        have h4 : m4 rest = true := by
          rw [← ih rest (by omega), hrec]
          rfl
        rw [h2, hm, h4]
        rfl
      | none =>
        have h2 : m2F (f + 1) l = m3 l := by
          unfold m2F
          rw [ht]
          dsimp only
          rw [hrec]
        have hm4r : m4 rest = false := by
          rw [← ih rest (by omega), hrec]
          rfl
        rw [h2]
        cases h3 : tryP3 l with
        | none =>
          rw [m3_isSome_of_tryP3_none h3, hm, hm4r]
        | some q =>
          have hq2 := @tryP3_imp_tryP2 l q.1 q.2 (by rw [h3])
          rw [ht] at hq2
          cases hq2
          have hm4l : m4 l = false := by rw [hm, hm4r]
          unfold m3
          rw [h3]
          dsimp only
          rw [hm4r, if_neg (by simp), hm4l, if_neg (by simp)]
          rfl

theorem m2F_cap_none :
    ∀ (fuel : Nat) (l : List Char) (cap : Option (List Char)),
      l.length < fuel → m2F fuel l = some cap → cap = none := by
  intro fuel
  induction fuel with
  | zero => intro l cap h _; omega
  | succ f ih =>
    intro l cap hl h
    cases ht : tryP2 l with
    | none =>
      have h2 : m2F (f + 1) l = m3 l := by
        unfold m2F
        rw [ht]
      rw [h2] at h
      cases h3 : tryP3 l with
      | none =>
        unfold m3 at h
        rw [h3] at h
        cases hm : m4 l
        · rw [hm, if_neg (by simp)] at h
          cases h
        · rw [hm, if_pos rfl] at h
          cases h
          rfl
      | some q =>
        have := @tryP3_imp_tryP2 l q.1 q.2 (by rw [h3])
        rw [ht] at this
        cases this
    | some rest =>
      have hr : rest.length < l.length := tryP2_length ht
      cases hrec : m2F f rest with
      | some cap2 =>
        have h2 : m2F (f + 1) l = some cap2 := by
          unfold m2F
          rw [ht]
          dsimp only
          rw [hrec]
        rw [h2] at h
        cases h
        exact ih rest cap (by omega) hrec
      | none =>
        have h2 : m2F (f + 1) l = m3 l := by
          unfold m2F
          rw [ht]
          dsimp only
          rw [hrec]
        rw [h2] at h
        have hm4r : m4 rest = false := by
          rw [← m2F_isSome f rest (by omega), hrec]
          rfl
        have hm4l : m4 l = false := by rw [tryP2_m4 ht, hm4r]
        cases h3 : tryP3 l with
        | none =>
          unfold m3 at h
          rw [h3, hm4l, if_neg (by simp)] at h
          cases h
        | some q =>
          have hq2 := @tryP3_imp_tryP2 l q.1 q.2 (by rw [h3])
          rw [ht] at hq2
          cases hq2
          unfold m3 at h
          rw [h3] at h
          dsimp only at h
          rw [hm4r, if_neg (by simp), hm4l, if_neg (by simp)] at h
          cases h

theorem m2_nil : m2 [] = some none := by decide

theorem m2_cap_none {l : List Char} {cap : Option (List Char)} (h : m2 l = some cap) :
    cap = none :=
  m2F_cap_none (l.length + 1) l cap (by omega) h

theorem lazyLoop_noNL_total :
    ∀ (l acc : List Char), ('\n') ∉ l → ∃ g1, lazyLoop acc l = some (g1, none) := by
  intro l
  induction l with
  | nil =>
    intro acc _
    refine ⟨acc.reverse, ?_⟩
    unfold lazyLoop
    rw [m2_nil]
  | cons c cs ih =>
    intro acc hnl
    have hc : c ≠ '\n' := fun h => hnl (h ▸ List.mem_cons_self c cs)
    have hcs : ('\n') ∉ cs := fun h => hnl (List.mem_cons_of_mem c h)
    cases hm : m2 (c :: cs) with
    | none =>
      obtain ⟨g1, hg⟩ := ih (c :: acc) hcs
      refine ⟨g1, ?_⟩
      unfold lazyLoop
      rw [hm]
      dsimp only
      rw [if_neg hc]
      exact hg
    | some cap =>
      have := m2_cap_none hm
      subst this
      refine ⟨acc.reverse, ?_⟩
      unfold lazyLoop
      rw [hm]

theorem gbr_revision (s : String) (hnl : ('\n') ∉ s.data) :
    (get_base_name_and_revision s).2 = (findFirstRev s.data).bind parseDigitsI32 := by
  obtain ⟨g1, hg⟩ := lazyLoop_noNL_total s.data [] hnl
  unfold get_base_name_and_revision regexCaptures
  rw [hg]
  dsimp only
  rw [Option.none_bind]

/-! Lemmas on the revision selector. -/

theorem maxFold_spec :
    ∀ (rs : List Rom) (acc : Rom),
      ∃ l1 l2, acc :: rs = l1 ++ (rs.foldl maxStep acc) :: l2 ∧
        (∀ x ∈ acc :: rs, romKey x ≤ romKey (rs.foldl maxStep acc)) ∧
        (∀ x ∈ l2, romKey x < romKey (rs.foldl maxStep acc)) := by
  intro rs
  induction rs using List.reverseRecOn with
  | nil =>
    intro acc
    exact ⟨[], [], rfl, by simp, by simp⟩
  | append_singleton rs x ih =>
    intro acc
    obtain ⟨l1, l2, hsplit, hle, hlt⟩ := ih acc
    rw [List.foldl_append]
    by_cases h : romKey (rs.foldl maxStep acc) ≤ romKey x
    · refine ⟨acc :: rs, [], ?_, ?_, ?_⟩
      · simp [List.foldl, maxStep, h]
      · intro y hy
        simp only [List.foldl, maxStep, if_pos h]
        simp only [List.cons_append, List.mem_cons, List.mem_append,
          List.mem_singleton] at hy
        rcases hy with hy | hy | hy | hy
        · exact le_trans (hle y (by simp [hy])) h
        · exact le_trans (hle y (List.mem_cons_of_mem acc hy)) h
        · exact hy ▸ le_refl _
        · exact absurd hy (List.not_mem_nil y)
      · intro y hy
        exact absurd hy (List.not_mem_nil y)
    · have hx : romKey x < romKey (rs.foldl maxStep acc) := lt_of_not_le h
      refine ⟨l1, l2 ++ [x], ?_, ?_, ?_⟩
      · simp only [List.foldl, maxStep, if_neg h]
        rw [show acc :: (rs ++ [x]) = (acc :: rs) ++ [x] by simp, hsplit]
        simp
      · intro y hy
        simp only [List.foldl, maxStep, if_neg h]
        simp only [List.cons_append, List.mem_cons, List.mem_append,
          List.mem_singleton] at hy
        rcases hy with hy | hy | hy | hy
        · exact hle y (by simp [hy])
        · exact hle y (List.mem_cons_of_mem acc hy)
        · exact hy ▸ le_of_lt hx
        · exact absurd hy (List.not_mem_nil y)
      · intro y hy
        simp only [List.foldl, maxStep, if_neg h]
        rcases List.mem_append.mp hy with hy1 | hy2
        · exact hlt y hy1
        · simp only [List.mem_singleton] at hy2
          exact hy2 ▸ hx

theorem pickLatest_spec :
    ∀ g : List Rom, g ≠ [] →
      ∃ w l1 l2, pickLatest g = [w] ∧ g = l1 ++ w :: l2 ∧
        (∀ x ∈ g, romKey x ≤ romKey w) ∧ (∀ x ∈ l2, romKey x < romKey w) := by
  intro g hg
  match g with
  | [] => exact absurd rfl hg
  | [r] =>
    refine ⟨r, [], [], rfl, rfl, ?_, ?_⟩
    · intro x hx
      simp only [List.mem_singleton] at hx
      exact hx ▸ le_refl _
    · intro x hx
      simp at hx
  | r1 :: r2 :: t =>
    obtain ⟨l1, l2, hsplit, hle, hlt⟩ := maxFold_spec (r2 :: t) r1
    refine ⟨(r2 :: t).foldl maxStep r1, l1, l2, ?_, hsplit, hle, hlt⟩
    simp [pickLatest, maxByKeyLast]

theorem pickLatest_mem {g : List Rom} (hg : g ≠ []) :
    ∃ w, pickLatest g = [w] ∧ w ∈ g := by
  obtain ⟨w, l1, l2, hpick, hsplit, _, _⟩ := pickLatest_spec g hg
  exact ⟨w, hpick, by rw [hsplit]; simp⟩

theorem mem_keysOf_insertGroup :
    ∀ (m : List (String × List Rom)) (k : String) (r : Rom) (x : String),
      x ∈ keysOf (insertGroup k r m) ↔ x = k ∨ x ∈ keysOf m := by
  intro m k r
  induction m with
  | nil => intro x; simp [insertGroup, keysOf]
  | cons p rest ih =>
    intro x
    by_cases h1 : k = p.1
    · subst h1
      simp only [insertGroup, keysOf, List.map_cons, eq_self_iff_true, if_true,
        List.mem_cons]
      tauto
    · by_cases h2 : strLtB k p.1
      · simp only [insertGroup, if_neg h1, if_pos h2, keysOf, List.map_cons, List.mem_cons]
      · simp only [insertGroup, if_neg h1, if_neg h2, keysOf, List.map_cons, List.mem_cons]
        rw [show keysOf (insertGroup k r rest) = (insertGroup k r rest).map Prod.fst from rfl] at ih
        rw [show keysOf rest = rest.map Prod.fst from rfl] at ih
        rw [ih x]
        tauto

theorem pairwise_keysOf_insertGroup
    {m : List (String × List Rom)} (k : String) (r : Rom)
    (h : (keysOf m).Pairwise strLt) :
    (keysOf (insertGroup k r m)).Pairwise strLt := by
  induction m with
  | nil => simp [insertGroup, keysOf]
  | cons p rest ih =>
    simp only [keysOf, List.map_cons, List.pairwise_cons] at h
    obtain ⟨hhead, htail⟩ := h
    by_cases h1 : k = p.1
    · simp only [insertGroup, if_pos h1, keysOf, List.map_cons, List.pairwise_cons]
      exact ⟨hhead, htail⟩
    · by_cases h2 : strLtB k p.1
      · simp only [insertGroup, if_neg h1, if_pos h2, keysOf, List.map_cons,
          List.pairwise_cons]
        refine ⟨?_, hhead, htail⟩
        intro b hb
        rcases List.mem_cons.mp hb with hb | hb
        · exact hb ▸ h2
        · exact strLtB_trans h2 (hhead b hb)
      · have hlt : strLtB p.1 k = true := by
          have hk2 : strLtB k p.1 = false := by
            cases hy : strLtB k p.1
            · rfl
            · exact absurd hy h2
          cases hx : strLtB p.1 k
          · exact absurd (strLtB_eq_of_not_lt hk2 hx) h1
          · rfl
        simp only [insertGroup, if_neg h1, if_neg h2, keysOf, List.map_cons,
          List.pairwise_cons]
        refine ⟨?_, ih htail⟩
        intro b hb
        rcases (mem_keysOf_insertGroup rest k r b).mp hb with hb | hb
        · exact hb ▸ hlt
        · exact hhead b hb

theorem wfGroups_insertGroup
    {m : List (String × List Rom)} {k : String} {r : Rom}
    (hwf : wfGroups m) (hk : baseName r = k) : wfGroups (insertGroup k r m) := by
  induction m with
  | nil =>
    intro p hp
    simp only [insertGroup, List.mem_singleton] at hp
    subst hp
    refine ⟨by simp, ?_⟩
    intro x hx
    simp only [List.mem_singleton] at hx
    exact hx ▸ hk
  | cons q rest ih =>
    have hq := hwf q (List.mem_cons_self q rest)
    have hrest : wfGroups rest := fun p hp => hwf p (List.mem_cons_of_mem q hp)
    by_cases h1 : k = q.1
    · intro p hp
      simp only [insertGroup, if_pos h1, List.mem_cons] at hp
      rcases hp with hp | hp
      · subst hp
        refine ⟨by simp [hq.1], ?_⟩
        intro x hx
        rcases List.mem_append.mp hx with hx | hx
        · exact hq.2 x hx
        · simp only [List.mem_singleton] at hx
          exact hx ▸ (hk.trans h1)
      · exact hrest p hp
    · by_cases h2 : strLtB k q.1
      · intro p hp
        simp only [insertGroup, if_neg h1, if_pos h2, List.mem_cons] at hp
        rcases hp with hp | hp | hp
        · subst hp
          refine ⟨by simp, ?_⟩
          intro x hx
          simp only [List.mem_singleton] at hx
          exact hx ▸ hk
        · exact hp ▸ hq
        · exact hrest p hp
      · intro p hp
        simp only [insertGroup, if_neg h1, if_neg h2, List.mem_cons] at hp
        rcases hp with hp | hp
        · exact hp ▸ hq
        · exact ih hrest p hp

theorem groupFold_master :
    ∀ (roms : List Rom) (m : List (String × List Rom)),
      (keysOf m).Pairwise strLt → wfGroups m →
        (keysOf (roms.foldl (fun m r => insertGroup (baseName r) r m) m)).Pairwise strLt ∧
        wfGroups (roms.foldl (fun m r => insertGroup (baseName r) r m) m) ∧
        ∀ x, x ∈ keysOf (roms.foldl (fun m r => insertGroup (baseName r) r m) m) ↔
          x ∈ keysOf m ∨ x ∈ roms.map baseName := by
  intro roms
  induction roms with
  | nil =>
    intro m hp hw
    refine ⟨hp, hw, ?_⟩
    intro x
    simp
  | cons r rest ih =>
    intro m hp hw
    have hp2 := pairwise_keysOf_insertGroup (baseName r) r hp
    have hw2 := @wfGroups_insertGroup m (baseName r) r hw rfl
    obtain ⟨ha, hb, hc⟩ := ih (insertGroup (baseName r) r m) hp2 hw2
    refine ⟨ha, hb, ?_⟩
    intro x
    rw [List.foldl_cons] at *
    rw [hc x, mem_keysOf_insertGroup m (baseName r) r x]
    simp only [List.map_cons, List.mem_cons]
    tauto

theorem groupRoms_pairwise (roms : List Rom) :
    (keysOf (groupRoms roms)).Pairwise strLt :=
  (groupFold_master roms [] (by simp [keysOf]) (by intro p hp; cases hp)).1

theorem groupRoms_wf (roms : List Rom) : wfGroups (groupRoms roms) :=
  (groupFold_master roms [] (by simp [keysOf]) (by intro p hp; cases hp)).2.1

theorem groupRoms_mem_keys (roms : List Rom) (x : String) :
    x ∈ keysOf (groupRoms roms) ↔ x ∈ roms.map baseName := by
  have := (groupFold_master roms [] (by simp [keysOf]) (by intro p hp; cases hp)).2.2 x
  unfold groupRoms
  rw [this]
  simp [keysOf]

theorem collectWinners_map_baseName :
    ∀ m : List (String × List Rom), wfGroups m →
      (collectWinners m).map baseName = keysOf m := by
  intro m
  induction m with
  | nil => intro _; rfl
  | cons p rest ih =>
    intro hw
    have hp := hw p (List.mem_cons_self p rest)
    have hrest : wfGroups rest := fun q hq => hw q (List.mem_cons_of_mem p hq)
    obtain ⟨w, hpick, hmem⟩ := pickLatest_mem hp.1
    simp only [collectWinners, hpick, keysOf, List.map_cons, List.map_append,
      List.singleton_append, List.map]
    rw [show baseName w = p.1 from hp.2 w hmem]
    rw [ih hrest]
    rfl

theorem insertGroup_append_of_gt :
    ∀ (m : List (String × List Rom)) (k : String) (r : Rom),
      (∀ x ∈ keysOf m, strLtB x k = true) → insertGroup k r m = m ++ [(k, [r])] := by
  intro m
  induction m with
  | nil => intro k r _; rfl
  | cons p rest ih =>
    intro k r hall
    have hp : strLtB p.1 k = true := hall p.1 (by simp [keysOf])
    have h1 : ¬(k = p.1) := by
      intro h
      rw [h] at hp
      rw [strLtB_irrefl] at hp
      exact Bool.false_ne_true hp
    have h2 : ¬(strLtB k p.1 = true) := by
      rw [strLtB_asymm hp]
      simp
    simp only [insertGroup, if_neg h1, if_neg h2, List.cons_append]
    rw [ih k r fun x hx => hall x (by simp [keysOf] at hx ⊢; exact Or.inr hx)]

theorem groupFold_singletons :
    ∀ (xs : List Rom) (m : List (String × List Rom)),
      (∀ a ∈ keysOf m, ∀ x ∈ xs, strLtB a (baseName x) = true) →
      (xs.map baseName).Pairwise strLt →
      xs.foldl (fun m r => insertGroup (baseName r) r m) m =
        m ++ xs.map fun r => (baseName r, [r]) := by
  intro xs
  induction xs with
  | nil => intro m _ _; simp
  | cons x t ih =>
    intro m hall hpw
    simp only [List.map_cons, List.pairwise_cons] at hpw
    rw [List.foldl_cons]
    rw [insertGroup_append_of_gt m (baseName x) x fun a ha => hall a ha x (by simp)]
    rw [ih (m ++ [(baseName x, [x])]) ?_ hpw.2]
    · simp
    · intro a ha y hy
      rw [show keysOf (m ++ [(baseName x, [x])]) = keysOf m ++ [baseName x] by
        simp [keysOf]] at ha
      rcases List.mem_append.mp ha with ha | ha
      · exact hall a ha y (List.mem_cons_of_mem x hy)
      · simp only [List.mem_singleton] at ha
        subst ha
        exact hpw.1 (baseName y) (List.mem_map_of_mem baseName hy)

theorem collectWinners_singletons :
    ∀ xs : List Rom, collectWinners (xs.map fun r => (baseName r, [r])) = xs := by
  intro xs
  induction xs with
  | nil => rfl
  | cons x t ih =>
    simp only [List.map_cons, collectWinners]
    rw [show pickLatest [x] = [x] from rfl, ih]
    rfl

/-! The claims. -/

/-- Claim C1, counterexample: in a same-title group of two records with
equal revision keys, the winner picked by the group body of list_roms is
the SECOND record, not the first: Iterator::max_by_key keeps the last of
several equally maximal elements. -/
theorem claim_c1_counterexample :
    pickLatest [(⟨"Game (USA).zip", "u1"⟩ : Rom), ⟨"Game (Europe).zip", "u2"⟩] =
        [(⟨"Game (Europe).zip", "u2"⟩ : Rom)] ∧
      baseName ⟨"Game (USA).zip", "u1"⟩ = baseName ⟨"Game (Europe).zip", "u2"⟩ ∧
      romKey ⟨"Game (USA).zip", "u1"⟩ = romKey ⟨"Game (Europe).zip", "u2"⟩ ∧
      (⟨"Game (USA).zip", "u1"⟩ : Rom) ≠ ⟨"Game (Europe).zip", "u2"⟩ := by
  refine ⟨by decide, by decide, by decide, by decide⟩

/-- Claim C1, amended: for every non-empty same-title group, the winner
selected by the group body of list_roms is a record whose revision key
(revision with None as -1) is maximal, and it is the LAST such record in
in-group iteration order: every record after it in the group has a
strictly smaller key. -/
theorem claim_c1_tie_break (g : List Rom) (hg : g ≠ []) :
    ∃ w l1 l2, pickLatest g = [w] ∧ g = l1 ++ w :: l2 ∧
      (∀ x ∈ g, romKey x ≤ romKey w) ∧ (∀ x ∈ l2, romKey x < romKey w) :=
  pickLatest_spec g hg

/-- Claim C1, witness for the amended theorem at a concrete group. -/
theorem claim_c1_witness :
    ∃ w l1 l2,
      pickLatest [(⟨"Game (USA).zip", "u1"⟩ : Rom), ⟨"Game (Europe).zip", "u2"⟩] = [w] ∧
      [(⟨"Game (USA).zip", "u1"⟩ : Rom), ⟨"Game (Europe).zip", "u2"⟩] = l1 ++ w :: l2 ∧
      (∀ x ∈ [(⟨"Game (USA).zip", "u1"⟩ : Rom), ⟨"Game (Europe).zip", "u2"⟩],
        romKey x ≤ romKey w) ∧
      (∀ x ∈ l2, romKey x < romKey w) :=
  claim_c1_tie_break _ (by decide)

/-- Claim C2, counterexample: on a filename with an early (Rev 1) in the
title and a trailing metadata run holding (Rev 2), the spec rule of
claim C2 demands revision 2, but the code returns revision 1: capture
group 2 of the regex never participates, because the greedy metadata
star P2 always swallows a trailing (Rev digits) group first, so the
revision always comes from the first-anywhere fallback scan. -/
theorem claim_c2_counterexample :
    specC2Revision ("A (Rev 1) B (Rev 2).zip") = some 2 ∧
      (get_base_name_and_revision ("A (Rev 1) B (Rev 2).zip")).2 = some 1 := by
  refine ⟨by decide, by decide⟩

/-- Claim C2, amended: for every filename on which the anchored regex
matches — which includes every newline-free filename, since group 1 can
then take the whole name — the revision returned by
get_base_name_and_revision is exactly the first (Rev digits) group found
anywhere in the filename (parsed as i32), and None when there is none;
the trailing-run step of the spec never takes effect.  The statement is
made for ASCII filenames without a newline: the ASCII bound keeps the
embedded ASCII digit test in agreement with the Unicode digit escape of
the regex crate, and a newline could make the regex fail and take the
verbatim fallback branch instead. -/
theorem claim_c2_revision (s : String) (_hascii : ∀ c ∈ s.data, c.toNat ≤ 127)
    (hnl : ('\n') ∉ s.data) :
    (get_base_name_and_revision s).2 = (findFirstRev s.data).bind parseDigitsI32 :=
  gbr_revision s hnl

/-- Claim C2, witness for the amended theorem at a concrete filename
carrying two revision groups. -/
theorem claim_c2_witness :
    (∀ c ∈ ("A (Rev 1) B (Rev 2).zip" : String).data, c.toNat ≤ 127) ∧
      ('\n') ∉ ("A (Rev 1) B (Rev 2).zip" : String).data ∧
      (get_base_name_and_revision ("A (Rev 1) B (Rev 2).zip")).2 =
        (findFirstRev ("A (Rev 1) B (Rev 2).zip" : String).data).bind parseDigitsI32 :=
  ⟨by decide, by decide, claim_c2_revision ("A (Rev 1) B (Rev 2).zip") (by decide) (by decide)⟩

/-- Claim C7: when latest_revision is off, the record-level core of
list_roms is the identity: same records, same order. -/
theorem claim_c7_passthrough (roms : List Rom) : list_roms_core false roms = roms := by
  simp [list_roms_core]

/-- Claim C3: is_valid_file is the conjunction of the three independent
checks (region limit with exact tag match against the region or World,
substring exclude patterns, exact-match smart-filter keywords), so the
accept/reject outcome does not depend on evaluation order: the same
conjunction in a different order gives the same answer. -/
theorem claim_c3_conjunction (o : FilterOptions) (s : String) :
    is_valid_file o s = (regionPass o s && excludePass o s && smartPass o s) ∧
      is_valid_file o s = (smartPass o s && (excludePass o s && regionPass o s)) := by
  constructor <;>
  · simp only [is_valid_file, regionPass, excludePass, smartPass]
    cases o.region_limit <;> cases o.smart_filters <;>
      cases hr : (get_terms_in_parentheses s).any fun t => t == o.region || t == "World" <;>
      cases he : (get_terms_in_parentheses s).any fun t =>
        o.exclude_patterns.any fun pat => strContains t pat <;>
      cases hs : (get_terms_in_parentheses s).any fun t => excluded_keywords.contains t <;>
      simp [hr, he, hs]

/-- Claim C4: the three concrete postconditions of splitTitleAndRevision
hold on the code: the revision and region run is stripped, a
parenthesised segment embedded mid-title stays in the title, and a
parenthesis-free name keeps its stem with no revision. -/
theorem claim_c4_examples :
    get_base_name_and_revision ("Super Game (Rev 2) (USA).zip") = ("Super Game", some 2) ∧
      get_base_name_and_revision ("Game with (Parentheses) in Name (World) (Rev 3).zip") =
        ("Game with (Parentheses) in Name", some 3) ∧
      get_base_name_and_revision ("Game.zip") = ("Game", none) := by
  refine ⟨by decide, by decide, by decide⟩

/-- Claim C5: the tag extractor is the specified one-pass state machine.
A left parenthesis sets the flag and clears the buffer (so a second left
parenthesis restarts the buffer, dropping the outer content), a right
parenthesis with the flag set emits the buffer and clears the flag, a
right parenthesis with the flag clear is ignored, any other character is
buffered exactly when the flag is set, characters outside parentheses
(flag clear, and no later left parenthesis) produce no tag, and
extractTags of the concrete example is the singleton Europe tag. -/
theorem claim_c5_state_machine :
    (∀ cs buf flag, tagsAux ('(' :: cs) buf flag = tagsAux cs [] true) ∧
      (∀ cs buf, tagsAux (')' :: cs) buf true = buf :: tagsAux cs buf false) ∧
      (∀ cs buf, tagsAux (')' :: cs) buf false = tagsAux cs buf false) ∧
      (∀ c cs buf flag, c ≠ '(' → c ≠ ')' →
        tagsAux (c :: cs) buf flag = tagsAux cs (if flag then buf ++ [c] else buf) flag) ∧
      (∀ u buf, ('(') ∉ u → tagsAux u buf false = []) ∧
      get_terms_in_parentheses ("Super Game (Europe).zip") = ["Europe"] := by
  have hne : (')' : Char) ≠ '(' := by decide
  refine ⟨?_, ?_, ?_, ?_, ?_, by decide⟩
  · intro cs buf flag
    simp [tagsAux]
  · intro cs buf
    simp [tagsAux, hne]
  · intro cs buf
    simp [tagsAux, hne]
  · intro c cs buf flag h1 h2
    cases flag <;> simp [tagsAux, h1, h2]
  · exact tagsAux_no_open

/-- Claim C5, witness for the buffered-character transition at a
concrete character and state. -/
theorem claim_c5_witness :
    tagsAux ['x'] ['a'] true = tagsAux [] (if true then ['a'] ++ ['x'] else ['a']) true :=
  claim_c5_state_machine.2.2.2.1 'x' [] ['a'] true (by decide) (by decide)

/-- Claim C9: the engine is total and never raises:
get_base_name_and_revision always returns a (title, revision) pair,
is_valid_file always returns a boolean, and whenever the anchored regex
finds no structural match the filename comes back verbatim with no
revision.  The no-match branch is live: the regex matches every
newline-free filename (group 1 can take the whole name), but a newline,
which the regex dot cannot cross, can make it fail, as on the
pathological "A\nB (Rev 2).zip", which is returned verbatim.  The
unbalanced "(((" also comes back verbatim with no revision (through a
match whose group 1 is the whole name). -/
theorem claim_c9_total :
    (∀ s : String, ∃ t r, get_base_name_and_revision s = (t, r)) ∧
      (∀ (o : FilterOptions) (s : String),
        is_valid_file o s = true ∨ is_valid_file o s = false) ∧
      (∀ s : String, regexCaptures s = none → get_base_name_and_revision s = (s, none)) ∧
      (∀ s : String, ('\n') ∉ s.data → (regexCaptures s).isSome = true) ∧
      regexCaptures ("A\nB (Rev 2).zip") = none ∧
      get_base_name_and_revision ("A\nB (Rev 2).zip") = ("A\nB (Rev 2).zip", none) ∧
      get_base_name_and_revision ("(((") = ("(((", none) := by
  refine ⟨?_, ?_, ?_, ?_, by decide, by decide, by decide⟩
  · intro s
    exact ⟨_, _, rfl⟩
  · intro o s
    cases h : is_valid_file o s
    · exact Or.inr rfl
    · exact Or.inl rfl
  · intro s h
    unfold get_base_name_and_revision
    rw [h]
  · intro s hnl
    obtain ⟨g1, hg⟩ := lazyLoop_noNL_total s.data [] hnl
    unfold regexCaptures
    rw [hg]
    rfl

/-- Claim C9, witness: the verbatim no-match fallback is exercised at a
newline-bearing filename, and the always-matches case at a newline-free
one. -/
theorem claim_c9_witness :
    get_base_name_and_revision ("A\nB (Rev 2).zip") = ("A\nB (Rev 2).zip", none) ∧
      (regexCaptures ("Game.zip")).isSome = true :=
  ⟨claim_c9_total.2.2.1 ("A\nB (Rev 2).zip") (by decide),
   claim_c9_total.2.2.2.1 ("Game.zip") (by decide)⟩

/-- Claim C10: an unclosed final left parenthesis contributes no tag:
if no right parenthesis follows it, everything after it is dropped and
the tags are exactly those of the prefix before it. -/
theorem claim_c10_unclosed (u v : String) (hv : (')') ∉ v.data) :
    get_terms_in_parentheses (u ++ "(" ++ v) = get_terms_in_parentheses u := by
  unfold get_terms_in_parentheses
  have hdata : (u ++ "(" ++ v).data = u.data ++ ('(' :: v.data) := by
    rcases u with ⟨du⟩
    rcases v with ⟨dv⟩
    show (du ++ ['(']) ++ dv = du ++ ('(' :: dv)
    simp
  rw [hdata]
  rw [tagsAux_append u.data ('(' :: v.data) [] false]
  have h2 : tagsAux ('(' :: v.data) (tagState u.data ([], false)).1
      (tagState u.data ([], false)).2 = tagsAux v.data [] true := by
    simp [tagsAux]
  rw [h2, tagsAux_no_close v.data [] hv]
  simp

/-- Claim C10, witness: a region marker inside an unclosed group is
dropped. -/
theorem claim_c10_witness :
    get_terms_in_parentheses ("Game " ++ "(" ++ "USA") = get_terms_in_parentheses ("Game ") :=
  claim_c10_unclosed ("Game ") ("USA") (by decide)

/-- Claim C6: with latest_revision on, the core of list_roms yields
exactly one record per distinct base name present in the input (the
output base names are exactly the input base names, without duplicates,
and the output length is the number of distinct base names), and the
output is strictly ascending in the lexicographic order on base names. -/
theorem claim_c6_grouping (roms : List Rom) :
    ((list_roms_core true roms).map baseName).Pairwise strLt ∧
      (∀ t, t ∈ (list_roms_core true roms).map baseName ↔ t ∈ roms.map baseName) ∧
      (list_roms_core true roms).length = (roms.map baseName).dedup.length := by
  have hcore : list_roms_core true roms = collectWinners (groupRoms roms) := by
    simp [list_roms_core]
  have hmap : (collectWinners (groupRoms roms)).map baseName = keysOf (groupRoms roms) :=
    collectWinners_map_baseName _ (groupRoms_wf roms)
  have hpw := groupRoms_pairwise roms
  refine ⟨?_, ?_, ?_⟩
  · rw [hcore, hmap]
    exact hpw
  · intro t
    rw [hcore, hmap]
    exact groupRoms_mem_keys roms t
  · have hnodup : (keysOf (groupRoms roms)).Nodup := by
      refine hpw.imp ?_
      intro a b hab he
      rw [he] at hab
      unfold strLt at hab
      rw [strLtB_irrefl] at hab
      exact Bool.false_ne_true hab
    have hnd2 : ((roms.map baseName).dedup).Nodup := List.nodup_dedup _
    have hfin : (keysOf (groupRoms roms)).toFinset = ((roms.map baseName).dedup).toFinset := by
      ext x
      simp only [List.mem_toFinset, List.mem_dedup]
      exact groupRoms_mem_keys roms x
    have hlen : (keysOf (groupRoms roms)).length = ((roms.map baseName).dedup).length := by
      rw [← List.toFinset_card_of_nodup hnodup, ← List.toFinset_card_of_nodup hnd2, hfin]
    calc (list_roms_core true roms).length
        = ((list_roms_core true roms).map baseName).length := by rw [List.length_map]
      _ = (keysOf (groupRoms roms)).length := by rw [hcore, hmap]
      _ = ((roms.map baseName).dedup).length := hlen

/-- Claim C8: the latest-revision selection is idempotent: running the
core of list_roms on its own output (where every group is a singleton)
returns that output unchanged, in the same order. -/
theorem claim_c8_idempotent (roms : List Rom) :
    list_roms_core true (list_roms_core true roms) = list_roms_core true roms := by
  have hcore : list_roms_core true roms = collectWinners (groupRoms roms) := by
    simp [list_roms_core]
  have hmap : (collectWinners (groupRoms roms)).map baseName = keysOf (groupRoms roms) :=
    collectWinners_map_baseName _ (groupRoms_wf roms)
  have hpw : ((collectWinners (groupRoms roms)).map baseName).Pairwise strLt := by
    rw [hmap]
    exact groupRoms_pairwise roms
  have hsing : groupRoms (collectWinners (groupRoms roms)) =
      (collectWinners (groupRoms roms)).map fun r => (baseName r, [r]) := by
    unfold groupRoms
    have := groupFold_singletons (collectWinners (groupRoms roms)) []
      (fun a ha => absurd ha (by simp [keysOf])) hpw
    simpa using this
  rw [hcore]
  show (if !true then collectWinners (groupRoms roms)
    else collectWinners (groupRoms (collectWinners (groupRoms roms)))) =
      collectWinners (groupRoms roms)
  rw [if_neg (by simp), hsing, collectWinners_singletons]
